import Mathlib

/-!
Shallow embedding of the MergeTree read planner
(`dbms/src/Storages/MergeTree/MergeTreeDataSelectExecutor.cpp`).

Conventions of the embedding:
* `size_t` values are modelled as `Nat`.  All arithmetic on mark counts in
  the source stays within bounds, with one exception that is documented at
  `markRangesLoop` (the degenerate range `[0, 0)` produced for an empty
  index), where both the C++ `size_t` underflow and the `Nat` truncated
  subtraction lead to the same observable behaviour (non-termination of
  the loop, `none` in the fuelled embedding).
* The `PKCondition` object is external to this file's source; it is
  modelled as a record of its three query functions, exactly the interface
  the planner consumes.
* Block input streams carry no data relevant to the planner; a stream
  produced by `MergeTreeBlockInputStream` is modelled by the pair
  (part identifier, mark ranges it was told to read).  The remaining
  constructor arguments (path, block size, column list, cache flag,
  prewhere) do not influence which parts/ranges are read and are omitted.
* The `while`/`for` loops of the source are modelled by structural
  recursion; the single loop whose termination depends on a runtime value
  (`markRangesFromPkRange`'s stack descent) takes explicit fuel and
  returns `none` on exhaustion.
-/

/-- A half-open interval `[b, e)` of mark numbers.  The source fields are
named `begin`/`end`; `end` is a Lean keyword, so the fields are `b`/`e`. -/
structure MarkRange where
  b : Nat
  e : Nat
deriving DecidableEq, Repr

/-- The interface of the external `PKCondition` object, as consumed by
`markRangesFromPkRange`: `alwaysTrue()`, `mayBeTrueInRange(left, right)`
and `mayBeTrueAfter(left)`.  `α` is the type of primary-key values stored
in the index. -/
structure PKCond (α : Type) where
  alwaysTrue : Bool
  mayBeTrueInRange : α → α → Bool
  mayBeTrueAfter : α → Bool

/-- Everything `markRangesFromPkRange` reads from its environment: the
condition, the flat index (`index[i]` modelled as a total function, the
source never reads out of bounds for `marks_count > 0`), the primary key
arity, the mark count (`index.size() / key_size` in the source), and the
two planner settings the function uses. -/
structure PrunerCtx (α : Type) where
  cond : PKCond α
  index : Nat → α
  key_size : Nat
  marks_count : Nat
  min_marks_for_seek : Nat
  coarse_index_granularity : Nat

/-- The `may_be_true` computation of the loop body: the rightmost interval
(ending at `marks_count`) has no upper bound and uses `mayBeTrueAfter`. -/
def mayBeTrue {α : Type} (c : PrunerCtx α) (r : MarkRange) : Bool :=
  if r.e = c.marks_count then
    c.cond.mayBeTrueAfter (c.index (r.b * c.key_size))
  else
    c.cond.mayBeTrueInRange (c.index (r.b * c.key_size)) (c.index (r.e * c.key_size))

/-- The splitting step of the descent.  The source computes
`step = (range.end - range.begin - 1) / coarse_index_granularity + 1` and
runs `for (end = range.end; end > range.begin + step; end -= step)
push [end-step, end)`, then pushes `[range.begin, end)`.  Here `q + 1`
plays the role of `step` (so the recursion is well-founded even without
knowing `coarse_index_granularity > 0`), and the returned list is
leftmost-chunk-first, i.e. in the order in which the source's stack pops
them. -/
def splitChunksF (b q : Nat) : Nat → Nat → List MarkRange
  | 0, e => [⟨b, e⟩]
  | fuel + 1, e =>
    if b + (q + 1) < e then
      splitChunksF b q fuel (e - (q + 1)) ++ [⟨e - (q + 1), e⟩]
    else
      [⟨b, e⟩]

/-- `splitChunks b q e` is `splitChunksF` with enough fuel: each recursive
step decreases `e` by `q + 1 ≥ 1`, so `e` steps always suffice (see
`splitChunks_eq`, which recovers the natural recursion equation). -/
def splitChunks (b q e : Nat) : List MarkRange :=
  splitChunksF b q e e

theorem splitChunksF_congr (b q : Nat) :
    ∀ f₁ f₂ e, e ≤ f₁ → e ≤ f₂ → splitChunksF b q f₁ e = splitChunksF b q f₂ e := by
  intro f₁
  induction f₁ with
  | zero =>
    intro f₂ e h1 _
    interval_cases e
    cases f₂ with
    | zero => rfl
    | succ f => simp [splitChunksF]
  | succ f ih =>
    intro f₂ e h1 h2
    cases f₂ with
    | zero =>
      interval_cases e
      simp [splitChunksF]
    | succ f' =>
      simp only [splitChunksF]
      by_cases h : b + (q + 1) < e
      · simp only [if_pos h]
        rw [ih f' (e - (q + 1)) (by omega) (by omega)]
      · simp [if_neg h]

theorem splitChunks_eq (b q e : Nat) :
    splitChunks b q e =
      if b + (q + 1) < e then
        splitChunks b q (e - (q + 1)) ++ [⟨e - (q + 1), e⟩]
      else
        [⟨b, e⟩] := by
  unfold splitChunks
  cases e with
  | zero => simp [splitChunksF]
  | succ n =>
    simp only [splitChunksF]
    by_cases h : b + (q + 1) < n + 1
    · simp only [if_pos h]
      rw [splitChunksF_congr b q n (n + 1 - (q + 1)) (n + 1 - (q + 1)) (by omega) (by omega)]
    · simp [if_neg h]

/-- The stack loop of `markRangesFromPkRange`.  The stack is a list with
its head being the source's `ranges_stack.back()` (the leftmost interval);
`res` is the output accumulator stored in reverse (head = the source's
`res.back()`).  The loop's termination depends on runtime values (for the
degenerate interval `[0, 0)` the source loops forever, via a `size_t`
underflow making `step` huge; the embedding's `Nat` subtraction gives
`step = 1` with the same effect), so the embedding takes fuel and returns
`none` if it runs out. -/
def markRangesLoop {α : Type} (c : PrunerCtx α) :
    Nat → List MarkRange → List MarkRange → Option (List MarkRange)
  | _, [], res => some res
  | 0, _ :: _, _ => none
  | fuel + 1, r :: stack, res =>
    if mayBeTrue c r = false then
      markRangesLoop c fuel stack res
    else if r.e = r.b + 1 then
      markRangesLoop c fuel stack
        (match res with
         | [] => [r]
         | prev :: rest =>
           if c.min_marks_for_seek < r.b - prev.e then r :: prev :: rest
           else ⟨prev.b, r.e⟩ :: rest)
    else
      markRangesLoop c fuel
        (splitChunks r.b ((r.e - r.b - 1) / c.coarse_index_granularity) r.e ++ stack) res

/-- `MergeTreeDataSelectExecutor::markRangesFromPkRange`.  If the condition
is `alwaysTrue`, the single range `[0, marks_count)` is returned without
consulting the index; otherwise the stack descent runs.  The accumulator is
kept reversed inside the loop, so the final answer is reversed back. -/
def markRangesFromPkRange {α : Type} (c : PrunerCtx α) (fuel : Nat) :
    Option (List MarkRange) :=
  if c.cond.alwaysTrue then
    some [⟨0, c.marks_count⟩]
  else
    (markRangesLoop c fuel [⟨0, c.marks_count⟩] []).map List.reverse

/-- A condition that matches exactly the keys 5 and 7, over the identity
index (key value = mark number, `key_size = 1`): used for the concrete
coalescing scenario of the specification. -/
def exampleCond57 : PKCond Nat :=
  ⟨false,
   fun lo hi => decide (lo ≤ 5 ∧ 5 < hi) || decide (lo ≤ 7 ∧ 7 < hi),
   fun lo => decide (lo ≤ 5) || decide (lo ≤ 7)⟩

/-- Pruner context for the coalescing scenario: 16 marks, identity index,
fan-out 2, seek threshold `m`. -/
def exampleCtx57 (m : Nat) : PrunerCtx Nat :=
  ⟨exampleCond57, fun k => k, 1, 16, m, 2⟩

example : markRangesFromPkRange (exampleCtx57 2) 200 = some [⟨5, 8⟩] := by decide
example : markRangesFromPkRange (exampleCtx57 0) 200 = some [⟨5, 6⟩, ⟨7, 8⟩] := by decide

/-! ## Normal thread spreader (`spreadMarkRangesAmongThreads`) -/

/-- The two `LOGICAL_ERROR` exceptions thrown by
`spreadMarkRangesAmongThreads`: "Unexpected end of ranges while spreading
marks among threads" (inner partial-take loop) and "Couldn't spread marks
among threads" (parts left over after all workers). -/
inductive SpreadError where
  | unexpectedEndOfRanges : SpreadError
  | couldNotSpread : SpreadError
deriving DecidableEq, Repr

/-- Sum of `range.end - range.begin` over a range list. -/
def sumMarksRanges (rs : List MarkRange) : Nat :=
  (rs.map (fun r => r.e - r.b)).sum

/-- A stream built by `MergeTreeBlockInputStream(...)`: the part identifier
and the mark ranges the stream is told to read. -/
abbrev StreamUnit := Nat × List MarkRange

/-- The inner loop of the partial take ("Цикл по отрезкам куска"): peel
ranges off the part until `need` marks are collected, splitting the last
range at the boundary.  The part's ranges are kept in natural order with
the head playing the role of the source's reversed vector's `back()` (the
leftmost range), so the source's preparatory `std::reverse` and the
restoring `std::reverse` before a whole-part take are both the identity in
this representation.  `acc` collects `ranges_to_get_from_part` in reverse.
The source pops the range when `range.begin == range.end` after the take;
for ranges with `b ≤ e` (the only ones the planner ever builds) the `≤`
used here is equivalent, and it keeps the function total on malformed
ranges, where the source's `size_t` subtraction would underflow. -/
def takeFromRanges : Nat → List MarkRange → List MarkRange →
    Except SpreadError (List MarkRange × List MarkRange)
  | 0, ranges, acc => .ok (acc.reverse, ranges)
  | _ + 1, [], _ => .error .unexpectedEndOfRanges
  | need + 1, r :: rs, acc =>
    let t := min (r.e - r.b) (need + 1)
    if r.e ≤ r.b + t then
      takeFromRanges (need + 1 - t) rs (⟨r.b, r.b + t⟩ :: acc)
    else
      -- Here the range holds strictly more marks than needed, so
      -- `t = need + 1`: the source splits the range in place, sets
      -- `need_marks` to 0 and its `while (need_marks > 0)` exits — i.e.
      -- it returns the collected ranges and keeps the trimmed range.
      .ok ((⟨r.b, r.b + t⟩ :: acc).reverse, ⟨r.b + t, r.e⟩ :: rs)

/-- The two need-adjustment rules at the head of the per-part loop body:
quantization-up ("Не будем брать из куска слишком мало строк") and
remainder absorption ("Не будем оставлять в куске слишком мало строк"). -/
def adjustNeed (mmcr marks_in_part need : Nat) : Nat :=
  let need₁ := if mmcr ≤ marks_in_part ∧ need < mmcr then mmcr else need
  if need₁ < marks_in_part ∧ marks_in_part - need₁ < mmcr then marks_in_part else need₁

/-- One worker slot's inner loop ("Цикл по кускам"): while marks are still
needed and parts remain, take the last part (here: the head, the list being
in consumed-first order) entirely, or peel off a prefix of its ranges.
`marks_in_part` is recomputed as the sum of the remaining ranges; the
source caches it in `sum_marks_in_parts` and keeps it equal to exactly
this sum.  A partial take ends the worker (afterwards `need_marks == 0`). -/
def workerLoop (mmcr : Nat) : Nat → List StreamUnit → List StreamUnit →
    Except SpreadError (List StreamUnit × List StreamUnit)
  | 0, parts, acc => .ok (acc.reverse, parts)
  | _ + 1, [], acc => .ok (acc.reverse, [])
  | need + 1, (pid, ranges) :: rest, acc =>
    let marks_in_part := sumMarksRanges ranges
    let need₂ := adjustNeed mmcr marks_in_part (need + 1)
    if marks_in_part ≤ need₂ then
      workerLoop mmcr (need₂ - marks_in_part) rest ((pid, ranges) :: acc)
    else
      match takeFromRanges need₂ ranges [] with
      | .error err => .error err
      | .ok (got, restRanges) => .ok ((((pid, got)) :: acc).reverse, (pid, restRanges) :: rest)

/-- The worker slots loop (`for (i = 0; i < threads && !parts.empty(); ++i)`).
Each worker is modelled as the list of streams it collected (`streams`;
the source wraps two or more of them in a `ConcatBlockInputStream`, which
reads them in exactly this order). -/
def threadLoop (mmcr mmpt : Nat) : Nat → List StreamUnit → List (List StreamUnit) →
    Except SpreadError (List (List StreamUnit) × List StreamUnit)
  | 0, parts, acc => .ok (acc.reverse, parts)
  | t + 1, parts, acc =>
    if parts.isEmpty then .ok (acc.reverse, parts)
    else
      match workerLoop mmcr mmpt parts [] with
      | .error e => .error e
      | .ok (streams, parts') => threadLoop mmcr mmpt t parts' (streams :: acc)

/-- `MergeTreeDataSelectExecutor::spreadMarkRangesAmongThreads`.  The
`std::random_shuffle` is modelled as the identity: the caller's list order
is the post-shuffle order.  The parts vector is consumed from its back, so
it is reversed here into consumed-first order.  When `sum_marks == 0` the
distribution loop and the leftover check are skipped and no streams are
produced. -/
def spreadMarkRangesAmongThreads (parts0 : List StreamUnit) (threads mmcr : Nat) :
    Except SpreadError (List (List StreamUnit)) :=
  let sum_marks := (parts0.map (fun p => sumMarksRanges p.2)).sum
  if 0 < sum_marks then
    let min_marks_per_thread := (sum_marks - 1) / threads + 1
    match threadLoop mmcr min_marks_per_thread threads parts0.reverse [] with
    | .error e => .error e
    | .ok (res, remaining) =>
      if remaining.isEmpty then .ok res else .error .couldNotSpread
  else
    .ok []

example :
    spreadMarkRangesAmongThreads [(0, [⟨0, 5⟩]), (1, [⟨0, 15⟩])] 2 0 =
      .ok [[(1, [⟨0, 10⟩])], [(1, [⟨10, 15⟩]), (0, [⟨0, 5⟩])]] := rfl

example :
    spreadMarkRangesAmongThreads [(1, [⟨0, 15⟩]), (0, [⟨0, 5⟩])] 2 0 =
      .ok [[(0, [⟨0, 5⟩]), (1, [⟨0, 5⟩])], [(1, [⟨5, 15⟩])]] := rfl

example :
    spreadMarkRangesAmongThreads [(0, [⟨0, 0⟩]), (1, [⟨0, 1⟩])] 1 0 =
      .error .couldNotSpread := rfl

/-! ## FINAL thread spreader (`spreadMarkRangesAmongThreadsFinal`) -/

/-- Tags naming the expressions the planner wires into stream wrappers:
the table's primary-key expression and the `sign == 1` filter built by
`createPositiveSignCondition`. -/
inductive ExprKind where
  | primaryKey : ExprKind
  | signEqualsOne : ExprKind
deriving DecidableEq, Repr

/-- The stream composition graph the FINAL planner builds.  `read` is a
`MergeTreeBlockInputStream` (part identifier plus mark ranges);
`expression`/`filter` are the `ExpressionBlockInputStream` and
`FilterBlockInputStream` wrappers, tagged by the expression they carry;
`collapsingFinal` is `CollapsingFinalBlockInputStream`, parametrized (in
the source) by the table's sort description and sign column, which are
fixed per table and carried implicitly. -/
inductive PlanStream where
  | read : Nat → List MarkRange → PlanStream
  | expression : PlanStream → ExprKind → PlanStream
  | filter : PlanStream → ExprKind → PlanStream
  | collapsingFinal : List PlanStream → PlanStream

/-- Whether a stream tree contains a `CollapsingFinalBlockInputStream`. -/
def PlanStream.hasCollapsing : PlanStream → Bool
  | .read _ _ => false
  | .expression s _ => s.hasCollapsing
  | .filter s _ => s.hasCollapsing
  | .collapsingFinal _ => true

/-- `MergeTreeDataSelectExecutor::spreadMarkRangesAmongThreadsFinal`.
One stream per part, each wrapped in the primary-key projection; then a
single positive-sign filter if exactly one part survived, a single
collapsing merge if two or more did, nothing if none did.  (The
`sum_marks`/cache computation of the source only toggles the cache flag,
which is not part of the distribution result.) -/
def spreadMarkRangesAmongThreadsFinal (parts : List StreamUnit) : List PlanStream :=
  let to_collapse := parts.map (fun p => PlanStream.expression (.read p.1 p.2) .primaryKey)
  match to_collapse with
  | [] => []
  | [s] => [PlanStream.filter (.expression s .signEqualsOne) .signEqualsOne]
  | s₁ :: s₂ :: rest => [PlanStream.collapsingFinal (s₁ :: s₂ :: rest)]

/-! ## Sampling section of `read` -/

/-- The supported physical types of the sampling column.  The source
compares `type->getName()` against the four unsigned integer types and
fails otherwise. -/
inductive ColType where
  | uint8 : ColType
  | uint16 : ColType
  | uint32 : ColType
  | uint64 : ColType
  | other : ColType
deriving DecidableEq, Repr

/-- `std::numeric_limits<...>::max()` of the sampling column type, `none`
for an unsupported type. -/
def typeMaxValue : ColType → Option Nat
  | .uint8 => some 255
  | .uint16 => some 65535
  | .uint32 => some 4294967295
  | .uint64 => some 18446744073709551615
  | .other => none

/-- The three exceptions thrown by the sampling section of `read`:
`ARGUMENT_OUT_OF_BOUND` ("Negative sample size"),
`ILLEGAL_TYPE_OF_COLUMN_FOR_FILTER` ("Invalid sampling column type..."),
`ILLEGAL_COLUMN` ("Sampling column not in primary key"). -/
inductive ReadError where
  | argumentOutOfBound : ReadError
  | illegalTypeOfColumnForFilter : ReadError
  | illegalColumn : ReadError
deriving DecidableEq, Repr

/-- Result of the sampling section: the limit passed to
`key_condition.addCondition(column, Range::createRightBounded(limit, true))`
(`none` when no condition was added) and the literal placed in the
`lessOrEquals(sampling_expression, limit)` row filter (`none` when no
filter was built). -/
structure SamplingOutcome where
  conditionLimit : Option Nat
  filterLimit : Option Nat
deriving DecidableEq, Repr

/-- The relative sample size (the source's `double size` after the
`if (size > 1)` block): an absolute request (`s > 1`) is divided by the
estimated total row count from the preliminary scan. -/
def sampleRelative (s : ℚ) (preliminaryScan : List (List MarkRange))
    (index_granularity : Nat) : ℚ :=
  if 1 < s then
    let requested : Nat := s.floor.toNat
    let total_count : Nat :=
      ((preliminaryScan.map sumMarksRanges).sum) * index_granularity
    if total_count = 0 then 1 else min 1 ((requested : ℚ) / (total_count : ℚ))
  else s

/-- The sampling section of `MergeTreeDataSelectExecutor::read` (the body
of `if (select.sample_size)`).  The C++ `double` arithmetic is modelled by
exact rational arithmetic; `FieldVisitorConvertToNumber<UInt64>` applied
to the (non-negative) sample literal and the final
`static_cast<UInt64>(size * sampling_column_max)` truncate toward zero,
i.e. are floors.  `preliminaryScan` is the per-part output of
`markRangesFromPkRange` over the date-surviving parts (computed by the
enclosing `read`); the section sums its marks and multiplies by
`index_granularity` to estimate the total row count.  In C++, a zero
`total_count` makes `requested / total_count` an infinity (or NaN), and
`std::min(1., x)` returns `1.` for both, so that case is modelled
explicitly as `1`.  `addConditionOk` is the boolean returned by the
external `key_condition.addCondition`. -/
def sampleSection (sampleSize : Option ℚ) (colType : ColType) (addConditionOk : Bool)
    (preliminaryScan : List (List MarkRange)) (index_granularity : Nat) :
    Except ReadError SamplingOutcome :=
  match sampleSize with
  | none => .ok ⟨none, none⟩
  | some s =>
    if s < 0 then .error .argumentOutOfBound
    else
      let size : ℚ := sampleRelative s preliminaryScan index_granularity
      match typeMaxValue colType with
      | none => .error .illegalTypeOfColumnForFilter
      | some m =>
        let limit : Nat := (⌊size * (m : ℚ)⌋).toNat
        if addConditionOk then .ok ⟨some limit, some limit⟩
        else .error .illegalColumn

example :
    sampleSection (some (1/2)) .uint32 true [] 8192 =
      .ok ⟨some 2147483647, some 2147483647⟩ := by
  simp only [sampleSection, typeMaxValue, sampleRelative]
  norm_num
  rfl

/-! ## Part selection inside `read` -/

/-- The per-part range computation of `read` (lines computing
`parts_with_ranges`): run the pruner on every date-surviving part and keep
the parts whose range list is non-empty.  Each part is given as its
identifier plus the pruner context built from its index; `none` if some
pruner run exhausts its fuel. -/
def readSelectParts {α : Type} (parts : List (Nat × PrunerCtx α)) (fuel : Nat) :
    Option (List StreamUnit) :=
  (parts.mapM (fun p => (markRangesFromPkRange p.2 fuel).map (fun rs => (p.1, rs)))).map
    (fun l => l.filter (fun u => !u.2.isEmpty))

/-! ## Structural lemmas about the index descent -/

theorem splitChunks_bounds (b q : Nat) :
    ∀ e, ∀ r ∈ splitChunks b q e, b ≤ r.b ∧ r.e ≤ e := by
  intro e
  induction e using Nat.strong_induction_on with
  | _ e ih =>
    intro r hr
    rw [splitChunks_eq] at hr
    by_cases h : b + (q + 1) < e
    · rw [if_pos h] at hr
      rcases List.mem_append.mp hr with h1 | h1
      · have := ih (e - (q + 1)) (by omega) r h1
        exact ⟨this.1, by omega⟩
      · simp only [List.mem_singleton] at h1
        subst h1
        refine ⟨?_, ?_⟩ <;> dsimp only <;> omega
    · rw [if_neg h] at hr
      simp only [List.mem_singleton] at hr
      subst hr
      refine ⟨?_, ?_⟩ <;> dsimp only <;> omega

theorem splitChunks_pairwise (b q : Nat) :
    ∀ e, List.Pairwise (fun x y => x.e ≤ y.b) (splitChunks b q e) := by
  intro e
  induction e using Nat.strong_induction_on with
  | _ e ih =>
    rw [splitChunks_eq]
    by_cases h : b + (q + 1) < e
    · rw [if_pos h]
      refine List.pairwise_append.mpr ⟨ih (e - (q + 1)) (by omega), List.pairwise_singleton _ _, ?_⟩
      intro x hx y hy
      simp only [List.mem_singleton] at hy
      subst hy
      exact (splitChunks_bounds b q (e - (q + 1)) x hx).2
    · rw [if_neg h]
      exact List.pairwise_singleton _ _

theorem splitChunks_cover (b q : Nat) :
    ∀ e k, b ≤ k → k < e → ∃ r ∈ splitChunks b q e, r.b ≤ k ∧ k < r.e := by
  intro e
  induction e using Nat.strong_induction_on with
  | _ e ih =>
    intro k hbk hke
    rw [splitChunks_eq]
    by_cases h : b + (q + 1) < e
    · rw [if_pos h]
      by_cases hk : k < e - (q + 1)
      · obtain ⟨r, hr, hcov⟩ := ih (e - (q + 1)) (by omega) k hbk hk
        exact ⟨r, List.mem_append_left _ hr, hcov⟩
      · refine ⟨⟨e - (q + 1), e⟩, List.mem_append_right _ (List.mem_singleton_self _), ?_, ?_⟩ <;>
          dsimp only <;> omega
    · rw [if_neg h]
      refine ⟨⟨b, e⟩, List.mem_singleton_self _, ?_, ?_⟩ <;> dsimp only <;> omega

/-- A range list covers mark `k`. -/
def Cover (l : List MarkRange) (k : Nat) : Prop := ∃ r ∈ l, r.b ≤ k ∧ k < r.e

/-- End of the most recently emitted output range (`res.back().end`), 0 if
none was emitted yet. -/
def resHeadE : List MarkRange → Nat
  | [] => 0
  | p :: _ => p.e

theorem cover_nil (k : Nat) : ¬ Cover [] k := by
  simp [Cover]

/-- Main invariant of the stack descent of `markRangesFromPkRange`: the
stack holds pairwise-disjoint, left-to-right ordered intervals (head
leftmost); the reversed output accumulator is pairwise separated by more
than `min_marks_for_seek` and consists of non-empty ranges; everything
still on the stack lies at or after the last emitted end; and (for an
arbitrary predicate `Sat` on marks for which the oracle is conservative)
every satisfying mark below `marks_count` is still covered by the stack or
already covered by the output. -/
theorem markRangesLoop_master {α : Type} (c : PrunerCtx α) (Sat : Nat → Prop)
    (hcons : ∀ r : MarkRange, ∀ k, r.b ≤ k → k < r.e → Sat k → mayBeTrue c r = true) :
    ∀ fuel stack res out,
      List.Pairwise (fun x y => x.e ≤ y.b) stack →
      List.Pairwise (fun x y => y.e + c.min_marks_for_seek < x.b) res →
      (∀ r ∈ res, r.b < r.e) →
      (∀ r ∈ stack, resHeadE res ≤ r.b) →
      (∀ k, k < c.marks_count → Sat k → Cover stack k ∨ Cover res k) →
      markRangesLoop c fuel stack res = some out →
      List.Pairwise (fun x y => y.e + c.min_marks_for_seek < x.b) out ∧
      (∀ r ∈ out, r.b < r.e) ∧
      (∀ k, k < c.marks_count → Sat k → Cover out k) := by
  intro fuel
  induction fuel with
  | zero =>
    intro stack res out h1 h2 h3 h4 h5 heq
    cases stack with
    | nil =>
      simp only [markRangesLoop, Option.some.injEq] at heq
      subst heq
      exact ⟨h2, h3, fun k hk hs => (h5 k hk hs).resolve_left (cover_nil k)⟩
    | cons r stack' =>
      simp only [markRangesLoop] at heq
      exact Option.noConfusion heq
  | succ fuel ih =>
    intro stack res out h1 h2 h3 h4 h5 heq
    cases stack with
    | nil =>
      simp only [markRangesLoop, Option.some.injEq] at heq
      subst heq
      exact ⟨h2, h3, fun k hk hs => (h5 k hk hs).resolve_left (cover_nil k)⟩
    | cons r stack' =>
      simp only [markRangesLoop] at heq
      obtain ⟨hhead, htail⟩ := List.pairwise_cons.mp h1
      by_cases hmay : mayBeTrue c r = false
      · rw [if_pos hmay] at heq
        refine ih stack' res out htail h2 h3 (fun x hx => h4 x (List.mem_cons_of_mem _ hx))
          ?_ heq
        intro k hk hs
        rcases h5 k hk hs with ⟨x, hx, hxc⟩ | hres
        · rcases List.mem_cons.mp hx with rfl | hx'
          · exact absurd (hcons x k hxc.1 hxc.2 hs) (by simp [hmay])
          · exact Or.inl ⟨x, hx', hxc⟩
        · exact Or.inr hres
      · rw [if_neg hmay] at heq
        by_cases hsingle : r.e = r.b + 1
        · rw [if_pos hsingle] at heq
          cases res with
          | nil =>
            refine ih stack' [r] out htail (List.pairwise_singleton _ _) ?_ ?_ ?_ heq
            · intro x hx
              simp only [List.mem_singleton] at hx
              subst hx
              omega
            · intro x hx
              have := hhead x hx
              simp only [resHeadE]
              omega
            · intro k hk hs
              rcases h5 k hk hs with ⟨x, hx, hxc⟩ | hres
              · rcases List.mem_cons.mp hx with rfl | hx'
                · exact Or.inr ⟨x, List.mem_singleton_self _, hxc⟩
                · exact Or.inl ⟨x, hx', hxc⟩
              · exact absurd hres (cover_nil k)
          | cons prev rest =>
            dsimp only at heq
            have hlink : prev.e ≤ r.b := h4 r (List.mem_cons_self _ _)
            obtain ⟨hprevsep, hrestpw⟩ := List.pairwise_cons.mp h2
            have hprevne : prev.b < prev.e := h3 prev (List.mem_cons_self _ _)
            by_cases hgap : c.min_marks_for_seek < r.b - prev.e
            · rw [if_pos hgap] at heq
              refine ih stack' (r :: prev :: rest) out htail ?_ ?_ ?_ ?_ heq
              · refine List.pairwise_cons.mpr ⟨?_, h2⟩
                intro x hx
                rcases List.mem_cons.mp hx with rfl | hx'
                · omega
                · have := hprevsep x hx'
                  omega
              · intro x hx
                rcases List.mem_cons.mp hx with rfl | hx'
                · omega
                · exact h3 x hx'
              · intro x hx
                have := hhead x hx
                simp only [resHeadE]
                omega
              · intro k hk hs
                rcases h5 k hk hs with ⟨x, hx, hxc⟩ | ⟨x, hx, hxc⟩
                · rcases List.mem_cons.mp hx with rfl | hx'
                  · exact Or.inr ⟨x, List.mem_cons_self _ _, hxc⟩
                  · exact Or.inl ⟨x, hx', hxc⟩
                · exact Or.inr ⟨x, List.mem_cons_of_mem _ hx, hxc⟩
            · rw [if_neg hgap] at heq
              refine ih stack' (⟨prev.b, r.e⟩ :: rest) out htail ?_ ?_ ?_ ?_ heq
              · refine List.pairwise_cons.mpr ⟨?_, hrestpw⟩
                intro x hx
                have := hprevsep x hx
                dsimp only
                omega
              · intro x hx
                rcases List.mem_cons.mp hx with hx' | hx'
                · rw [hx']
                  dsimp only
                  omega
                · exact h3 x (List.mem_cons_of_mem _ hx')
              · intro x hx
                have := hhead x hx
                simp only [resHeadE]
                omega
              · intro k hk hs
                rcases h5 k hk hs with ⟨x, hx, hxc⟩ | ⟨x, hx, hxc⟩
                · rcases List.mem_cons.mp hx with hx' | hx'
                  · rw [hx'] at hxc
                    refine Or.inr ⟨⟨prev.b, r.e⟩, List.mem_cons_self _ _, ?_, ?_⟩ <;>
                      dsimp only <;> omega
                  · exact Or.inl ⟨x, hx', hxc⟩
                · rcases List.mem_cons.mp hx with hx' | hx'
                  · rw [hx'] at hxc
                    refine Or.inr ⟨⟨prev.b, r.e⟩, List.mem_cons_self _ _, ?_, ?_⟩ <;>
                      dsimp only <;> omega
                  · exact Or.inr ⟨x, List.mem_cons_of_mem _ hx', hxc⟩
        · rw [if_neg hsingle] at heq
          refine ih (splitChunks r.b ((r.e - r.b - 1) / c.coarse_index_granularity) r.e ++ stack')
            res out ?_ h2 h3 ?_ ?_ heq
          · refine List.pairwise_append.mpr
              ⟨splitChunks_pairwise _ _ _, htail, ?_⟩
            intro x hx y hy
            have hxb := (splitChunks_bounds _ _ _ x hx).2
            have := hhead y hy
            omega
          · intro x hx
            rcases List.mem_append.mp hx with hx' | hx'
            · have := (splitChunks_bounds _ _ _ x hx').1
              have := h4 r (List.mem_cons_self _ _)
              omega
            · exact h4 x (List.mem_cons_of_mem _ hx')
          · intro k hk hs
            rcases h5 k hk hs with ⟨x, hx, hxc⟩ | hres
            · rcases List.mem_cons.mp hx with rfl | hx'
              · obtain ⟨rc, hrc, hrcc⟩ := splitChunks_cover x.b _ x.e k hxc.1 hxc.2
                exact Or.inl ⟨rc, List.mem_append_left _ hrc, hrcc⟩
              · exact Or.inl ⟨x, List.mem_append_right _ hx', hxc⟩
            · exact Or.inr hres

/-- A condition that may be true everywhere (`alwaysTrue` still false), on
the identity index with 2 marks: used as a witness oracle. -/
def exampleCtxConstTrue : PrunerCtx Nat :=
  ⟨⟨false, fun _ _ => true, fun _ => true⟩, fun k => k, 1, 2, 0, 2⟩

/-- An `alwaysTrue` condition over 16 marks. -/
def exampleCtxAlways : PrunerCtx Nat :=
  ⟨⟨true, fun _ _ => true, fun _ => true⟩, fun k => k, 1, 16, 0, 2⟩

/-- An `alwaysTrue` condition over a part with `marks_count = 0`. -/
def exampleCtxEmptyAlways : PrunerCtx Nat :=
  ⟨⟨true, fun _ _ => true, fun _ => true⟩, fun k => k, 1, 0, 0, 2⟩

/-- An `alwaysTrue` condition over a part with `marks_count = 1`. -/
def exampleCtxOneAlways : PrunerCtx Nat :=
  ⟨⟨true, fun _ _ => true, fun _ => true⟩, fun k => k, 1, 1, 0, 2⟩

/-- C1: every range list produced by `markRangesFromPkRange` is sorted
left-to-right, strictly non-overlapping, with adjacent ranges separated by
strictly more than `min_marks_for_seek` marks (the pairwise condition
`x.e + min_marks_for_seek < y.b` states all three at once); and on the
specification's concrete scenario two single-mark hits at marks 5 and 7
are coalesced into `[5, 8)` when `min_marks_for_seek = 2` (the previous
range's end is extended) but stay separate when `min_marks_for_seek = 0`. -/
theorem markRangesFromPkRange_sorted_separated :
    (∀ {α : Type} (c : PrunerCtx α) (fuel : Nat) (out : List MarkRange),
        markRangesFromPkRange c fuel = some out →
        List.Pairwise (fun x y => x.e + c.min_marks_for_seek < y.b) out) ∧
    markRangesFromPkRange (exampleCtx57 2) 200 = some [⟨5, 8⟩] ∧
    markRangesFromPkRange (exampleCtx57 0) 200 = some [⟨5, 6⟩, ⟨7, 8⟩] := by
  refine ⟨?_, by decide, by decide⟩
  intro α c fuel out hout
  unfold markRangesFromPkRange at hout
  by_cases hat : c.cond.alwaysTrue
  · rw [if_pos hat] at hout
    obtain rfl : out = [⟨0, c.marks_count⟩] := by
      exact (Option.some.injEq _ _ ▸ hout).symm ▸ (Option.some.inj hout).symm
    exact List.pairwise_singleton _ _
  · rw [if_neg hat] at hout
    obtain ⟨res', hres', rfl⟩ := Option.map_eq_some'.mp hout
    have h := markRangesLoop_master c (fun _ => False)
      (fun r k _ _ hf => absurd hf not_false) fuel [⟨0, c.marks_count⟩] [] res'
      (List.pairwise_singleton _ _) (List.Pairwise.nil) (by simp)
      (by intro r _; simp [resHeadE]) (by intro k _ hf; exact absurd hf not_false) hres'
    exact List.pairwise_reverse.mpr h.1

/-- Witness for C1 at a concrete input: the coalesced output for
`min_marks_for_seek = 2` satisfies the separation invariant. -/
theorem markRangesFromPkRange_sorted_separated_witness :
    List.Pairwise (fun x y : MarkRange => x.e + 2 < y.b) [⟨5, 8⟩] :=
  markRangesFromPkRange_sorted_separated.1 (exampleCtx57 2) 200 [⟨5, 8⟩] (by decide)

/-- C3: if the oracle is conservative for a predicate `Sat` on marks (it
never answers `false` on an interval containing a satisfying mark), then
every satisfying mark below `marks_count` is covered by some output range
of `markRangesFromPkRange`: the depth-first descent never drops a
satisfying mark. -/
theorem markRangesFromPkRange_covers_satisfying :
    ∀ {α : Type} (c : PrunerCtx α) (Sat : Nat → Prop) (fuel : Nat)
      (out : List MarkRange) (k : Nat),
      (∀ r : MarkRange, ∀ j, r.b ≤ j → j < r.e → Sat j → mayBeTrue c r = true) →
      k < c.marks_count → Sat k →
      markRangesFromPkRange c fuel = some out →
      ∃ r ∈ out, r.b ≤ k ∧ k < r.e := by
  intro α c Sat fuel out k hcons hk hsat hout
  unfold markRangesFromPkRange at hout
  by_cases hat : c.cond.alwaysTrue
  · rw [if_pos hat] at hout
    obtain rfl := (Option.some.inj hout).symm
    exact ⟨⟨0, c.marks_count⟩, List.mem_singleton_self _, Nat.zero_le _, hk⟩
  · rw [if_neg hat] at hout
    obtain ⟨res', hres', rfl⟩ := Option.map_eq_some'.mp hout
    have h := markRangesLoop_master c Sat hcons fuel [⟨0, c.marks_count⟩] [] res'
      (List.pairwise_singleton _ _) (List.Pairwise.nil) (by simp)
      (by intro r _; simp [resHeadE])
      (by
        intro j hj hsj
        exact Or.inl ⟨⟨0, c.marks_count⟩, List.mem_singleton_self _, Nat.zero_le _, hj⟩)
      hres'
    obtain ⟨r, hr, hrc⟩ := h.2.2 k hk hsat
    exact ⟨r, List.mem_reverse.mpr hr, hrc⟩

/-- Witness for C3: with a constantly-true oracle over 2 marks, mark 0
(declared satisfying) is covered by the single output range `[0, 2)`. -/
theorem markRangesFromPkRange_covers_satisfying_witness :
    ∃ r ∈ [(⟨0, 2⟩ : MarkRange)], r.b ≤ 0 ∧ 0 < r.e :=
  markRangesFromPkRange_covers_satisfying exampleCtxConstTrue (fun j => j = 0) 20
    [⟨0, 2⟩] 0
    (by
      intro r j _ _ _
      unfold mayBeTrue exampleCtxConstTrue
      split <;> rfl)
    (by decide) rfl (by decide)

/-- C9: when the condition is `alwaysTrue`, the pruner emits exactly the
single range `[0, marks_count)`, and it does so without consulting the
index: replacing the index by any other function leaves the result
unchanged. -/
theorem markRangesFromPkRange_alwaysTrue :
    ∀ {α : Type} (c : PrunerCtx α) (fuel : Nat),
      c.cond.alwaysTrue = true →
      markRangesFromPkRange c fuel = some [⟨0, c.marks_count⟩] ∧
      ∀ index2 : Nat → α,
        markRangesFromPkRange
          ⟨c.cond, index2, c.key_size, c.marks_count, c.min_marks_for_seek,
            c.coarse_index_granularity⟩ fuel = some [⟨0, c.marks_count⟩] := by
  intro α c fuel hat
  constructor
  · unfold markRangesFromPkRange
    rw [if_pos hat]
  · intro index2
    unfold markRangesFromPkRange
    rw [if_pos hat]

/-- Witness for C9 at a concrete `alwaysTrue` context with 16 marks. -/
theorem markRangesFromPkRange_alwaysTrue_witness :
    markRangesFromPkRange exampleCtxAlways 5 = some [⟨0, 16⟩] :=
  (markRangesFromPkRange_alwaysTrue exampleCtxAlways 5 rfl).1

/-- C8 counterexample: a part with `marks_count = 0` under an `alwaysTrue`
condition yields the single empty range `[0, 0)` — not "no ranges" — so it
survives `read`'s non-emptiness filter, and when spread together with a
one-mark part it is referenced by an emitted stream. -/
theorem emptyPart_emitted_counterexample :
    markRangesFromPkRange exampleCtxEmptyAlways 1 = some [⟨0, 0⟩] ∧
    readSelectParts [(0, exampleCtxEmptyAlways), (1, exampleCtxOneAlways)] 1 =
      some [(0, [⟨0, 0⟩]), (1, [⟨0, 1⟩])] ∧
    spreadMarkRangesAmongThreads [(0, [⟨0, 0⟩]), (1, [⟨0, 1⟩])] 2 0 =
      .ok [[(1, [⟨0, 1⟩])], [(0, [⟨0, 0⟩])]] ∧
    ([[(1, [⟨0, 1⟩])], [(0, [⟨0, 0⟩])]] : List (List StreamUnit)).any
      (fun w => w.any (fun s => s.1 == 0)) = true :=
  ⟨by decide, by decide, rfl, by decide⟩

/-- C8 amended: for `marks_count = 0` the pruner yields the single empty
range `[0, 0)` when the condition is `alwaysTrue` (the part then passes the
non-emptiness filter of `read`), and yields no ranges when the condition is
not `alwaysTrue` and the oracle rejects the degenerate interval. -/
theorem markRangesFromPkRange_zero_marks :
    ∀ {α : Type} (c : PrunerCtx α) (fuel : Nat),
      c.marks_count = 0 →
      (c.cond.alwaysTrue = true → markRangesFromPkRange c fuel = some [⟨0, 0⟩]) ∧
      (c.cond.alwaysTrue = false → c.cond.mayBeTrueAfter (c.index 0) = false →
        1 ≤ fuel → markRangesFromPkRange c fuel = some []) := by
  intro α c fuel hmc
  constructor
  · intro hat
    unfold markRangesFromPkRange
    rw [if_pos hat, hmc]
  · intro hat hafter hfuel
    unfold markRangesFromPkRange
    rw [if_neg (by simp [hat]), hmc]
    obtain ⟨fuel', rfl⟩ : ∃ f, fuel = f + 1 := ⟨fuel - 1, by omega⟩
    have hm : mayBeTrue c ⟨0, 0⟩ = false := by
      unfold mayBeTrue
      rw [if_pos (by dsimp only; omega)]
      simpa using hafter
    simp [markRangesLoop, hm]

/-- Witness for the amended C8 at concrete contexts: both the `alwaysTrue`
case and the rejecting-oracle case, evaluated. -/
theorem markRangesFromPkRange_zero_marks_witness :
    markRangesFromPkRange exampleCtxEmptyAlways 3 = some [⟨0, 0⟩] :=
  (markRangesFromPkRange_zero_marks exampleCtxEmptyAlways 3 rfl).1 rfl

/-- C5: the FINAL spreader emits nothing for zero surviving parts; for
exactly one part a positive-sign `Filter` over an `Expression` over the
part stream (and no collapsing merge anywhere in the output); for two or
more parts exactly one `CollapsingFinalBlockInputStream` consuming all the
per-part (primary-key-projected) streams. -/
theorem spreadMarkRangesAmongThreadsFinal_cases :
    ∀ parts : List StreamUnit,
      (parts = [] → spreadMarkRangesAmongThreadsFinal parts = []) ∧
      (∀ pid rs, parts = [(pid, rs)] →
        spreadMarkRangesAmongThreadsFinal parts =
          [PlanStream.filter
            (.expression (.expression (.read pid rs) .primaryKey) .signEqualsOne)
            .signEqualsOne] ∧
        ∀ s ∈ spreadMarkRangesAmongThreadsFinal parts, s.hasCollapsing = false) ∧
      (2 ≤ parts.length →
        spreadMarkRangesAmongThreadsFinal parts =
          [PlanStream.collapsingFinal
            (parts.map (fun p => PlanStream.expression (.read p.1 p.2) .primaryKey))]) := by
  intro parts
  refine ⟨?_, ?_, ?_⟩
  · rintro rfl
    rfl
  · rintro pid rs rfl
    refine ⟨rfl, ?_⟩
    intro s hs
    simp only [spreadMarkRangesAmongThreadsFinal, List.map_cons, List.map_nil,
      List.mem_singleton] at hs
    subst hs
    rfl
  · intro hlen
    match parts with
    | [] => simp at hlen
    | [p] => simp at hlen
    | p₁ :: p₂ :: rest => rfl

/-- Witness for C5 in the one-part case: the output is the sign filter and
contains no collapsing merge. -/
theorem spreadMarkRangesAmongThreadsFinal_cases_witness :
    spreadMarkRangesAmongThreadsFinal [(7, [⟨0, 4⟩])] =
      [PlanStream.filter
        (.expression (.expression (.read 7 [⟨0, 4⟩]) .primaryKey) .signEqualsOne)
        .signEqualsOne] :=
  ((spreadMarkRangesAmongThreadsFinal_cases [(7, [⟨0, 4⟩])]).2.1 7 [⟨0, 4⟩] rfl).1

/-! ## Mark accounting for the normal spreader -/

/-- The marks of a range, as a list `[b, b+1, ..., e-1]`. -/
def rangeMarksList (r : MarkRange) : List Nat :=
  (List.range (r.e - r.b)).map (fun k => r.b + k)

/-- The marks of a range list, concatenated in order. -/
def marksOfRanges (rs : List MarkRange) : List Nat :=
  (rs.map rangeMarksList).flatten

/-- The (part, mark) pairs read by one stream unit. -/
def marksOfUnit (u : StreamUnit) : List (Nat × Nat) :=
  (marksOfRanges u.2).map (fun k => (u.1, k))

/-- The (part, mark) pairs read by a list of stream units (also used for
the input part list, which has the same shape). -/
def marksOfUnits (ps : List StreamUnit) : List (Nat × Nat) :=
  (ps.map marksOfUnit).flatten

/-- The (part, mark) pairs read by a list of workers. -/
def marksOfWorkers (ws : List (List StreamUnit)) : List (Nat × Nat) :=
  (ws.map marksOfUnits).flatten

/-- Total marks over a list of stream units (the source's `sum_marks`). -/
def sumMarksUnits (ps : List StreamUnit) : Nat :=
  (ps.map (fun p => sumMarksRanges p.2)).sum

/-- Total marks over the workers' streams. -/
def sumMarksWorkers (ws : List (List StreamUnit)) : Nat :=
  (ws.map sumMarksUnits).sum

theorem marksOfRanges_append (l₁ l₂ : List MarkRange) :
    marksOfRanges (l₁ ++ l₂) = marksOfRanges l₁ ++ marksOfRanges l₂ := by
  simp [marksOfRanges]

theorem marksOfRanges_cons (x : MarkRange) (xs : List MarkRange) :
    marksOfRanges (x :: xs) = rangeMarksList x ++ marksOfRanges xs := by
  simp [marksOfRanges]

theorem marksOfRanges_singleton (x : MarkRange) :
    marksOfRanges [x] = rangeMarksList x := by
  simp [marksOfRanges]

theorem marksOfUnits_append (l₁ l₂ : List StreamUnit) :
    marksOfUnits (l₁ ++ l₂) = marksOfUnits l₁ ++ marksOfUnits l₂ := by
  simp [marksOfUnits]

theorem marksOfWorkers_append (l₁ l₂ : List (List StreamUnit)) :
    marksOfWorkers (l₁ ++ l₂) = marksOfWorkers l₁ ++ marksOfWorkers l₂ := by
  simp [marksOfWorkers]

theorem rangeMarksList_split (b t e : Nat) (h : b + t ≤ e) :
    rangeMarksList ⟨b, b + t⟩ ++ rangeMarksList ⟨b + t, e⟩ = rangeMarksList ⟨b, e⟩ := by
  unfold rangeMarksList
  dsimp only
  have h1 : b + t - b = t := by omega
  have h2 : e - b = t + (e - (b + t)) := by omega
  rw [h1, h2, List.range_add, List.map_append, List.map_map]
  congr 1
  apply List.map_congr_left
  intro x _
  simp only [Function.comp_apply]
  omega

theorem rangeMarksList_take (r : MarkRange) (t : Nat) (ht : t = min (r.e - r.b) t)
    (h : r.e ≤ r.b + t) : rangeMarksList ⟨r.b, r.b + t⟩ = rangeMarksList r := by
  unfold rangeMarksList
  dsimp only
  have : r.b + t - r.b = r.e - r.b := by omega
  rw [this]

theorem length_marksOfRanges (rs : List MarkRange) :
    (marksOfRanges rs).length = sumMarksRanges rs := by
  induction rs with
  | nil => rfl
  | cons r rest ih =>
    simp only [marksOfRanges, List.map_cons, List.flatten_cons, List.length_append,
      sumMarksRanges] at *
    simp [rangeMarksList, ih]

theorem length_marksOfUnits (ps : List StreamUnit) :
    (marksOfUnits ps).length = sumMarksUnits ps := by
  induction ps with
  | nil => rfl
  | cons p rest ih =>
    simp only [marksOfUnits, List.map_cons, List.flatten_cons, List.length_append,
      sumMarksUnits] at *
    simp [marksOfUnit, length_marksOfRanges, ih]

theorem length_marksOfWorkers (ws : List (List StreamUnit)) :
    (marksOfWorkers ws).length = sumMarksWorkers ws := by
  induction ws with
  | nil => rfl
  | cons w rest ih =>
    simp only [marksOfWorkers, List.map_cons, List.flatten_cons, List.length_append,
      sumMarksWorkers] at *
    simp [length_marksOfUnits, ih]

/-- `takeFromRanges` neither loses nor duplicates marks: the collected and
the remaining ranges together carry exactly the accumulator's and the
input's marks, in order. -/
theorem takeFromRanges_marks :
    ∀ (ranges : List MarkRange) (need : Nat) (acc got rest : List MarkRange),
      takeFromRanges need ranges acc = .ok (got, rest) →
      marksOfRanges got ++ marksOfRanges rest =
        marksOfRanges acc.reverse ++ marksOfRanges ranges := by
  intro ranges
  induction ranges with
  | nil =>
    intro need acc got rest h
    cases need with
    | zero =>
      simp only [takeFromRanges, Except.ok.injEq, Prod.mk.injEq] at h
      obtain ⟨rfl, rfl⟩ := h
      simp [marksOfRanges]
    | succ n =>
      simp only [takeFromRanges] at h
      exact Except.noConfusion h
  | cons r rs ih =>
    intro need acc got rest h
    cases need with
    | zero =>
      simp only [takeFromRanges, Except.ok.injEq, Prod.mk.injEq] at h
      obtain ⟨rfl, rfl⟩ := h
      simp [marksOfRanges]
    | succ n =>
      simp only [takeFromRanges] at h
      by_cases hc : r.e ≤ r.b + min (r.e - r.b) (n + 1)
      · rw [if_pos hc] at h
        have := ih (n + 1 - min (r.e - r.b) (n + 1)) (⟨r.b, r.b + min (r.e - r.b) (n + 1)⟩ :: acc)
          got rest h
        rw [this, List.reverse_cons, marksOfRanges_append]
        have htake : rangeMarksList ⟨r.b, r.b + min (r.e - r.b) (n + 1)⟩ = rangeMarksList r :=
          rangeMarksList_take r _ (by omega) hc
        simp only [marksOfRanges, List.map_cons, List.flatten_cons, List.map_nil,
          List.flatten_nil, List.append_nil, List.map_append, List.flatten_append]
        rw [htake]
        simp [List.append_assoc]
      · rw [if_neg hc] at h
        simp only [Except.ok.injEq, Prod.mk.injEq] at h
        obtain ⟨rfl, rfl⟩ := h
        rw [List.reverse_cons, marksOfRanges_append, marksOfRanges_cons, marksOfRanges_cons r rs]
        rw [show rangeMarksList r = rangeMarksList ⟨r.b, r.e⟩ from rfl]
        rw [← rangeMarksList_split r.b (min (r.e - r.b) (n + 1)) r.e (by omega)]
        simp [marksOfRanges, List.append_assoc]

theorem adjustNeed_ge (mmcr marks_in_part need : Nat) :
    need ≤ adjustNeed mmcr marks_in_part need := by
  unfold adjustNeed
  dsimp only
  split <;> split <;> omega

/-- `workerLoop` neither loses nor duplicates marks: the emitted streams
and the remaining parts together carry exactly the accumulator's and the
input parts' (part, mark) pairs, in order. -/
theorem workerLoop_marks :
    ∀ (parts : List StreamUnit) (mmcr need : Nat) (acc streams parts' : List StreamUnit),
      workerLoop mmcr need parts acc = .ok (streams, parts') →
      marksOfUnits streams ++ marksOfUnits parts' =
        marksOfUnits acc.reverse ++ marksOfUnits parts := by
  intro parts
  induction parts with
  | nil =>
    intro mmcr need acc streams parts' h
    cases need with
    | zero =>
      simp only [workerLoop, Except.ok.injEq, Prod.mk.injEq] at h
      obtain ⟨rfl, rfl⟩ := h
      simp
    | succ n =>
      simp only [workerLoop, Except.ok.injEq, Prod.mk.injEq] at h
      obtain ⟨rfl, rfl⟩ := h
      simp [marksOfUnits]
  | cons p rest ih =>
    intro mmcr need acc streams parts' h
    cases need with
    | zero =>
      simp only [workerLoop, Except.ok.injEq, Prod.mk.injEq] at h
      obtain ⟨rfl, rfl⟩ := h
      simp
    | succ n =>
      obtain ⟨pid, ranges⟩ := p
      simp only [workerLoop] at h
      by_cases hw : sumMarksRanges ranges ≤ adjustNeed mmcr (sumMarksRanges ranges) (n + 1)
      · rw [if_pos hw] at h
        have := ih mmcr _ ((pid, ranges) :: acc) streams parts' h
        rw [this, List.reverse_cons, marksOfUnits_append]
        simp [marksOfUnits, List.append_assoc]
      · rw [if_neg hw] at h
        cases htf : takeFromRanges (adjustNeed mmcr (sumMarksRanges ranges) (n + 1)) ranges []
          with
        | error e =>
          rw [htf] at h
          exact Except.noConfusion h
        | ok pr =>
          obtain ⟨got, restRanges⟩ := pr
          rw [htf] at h
          simp only [Except.ok.injEq, Prod.mk.injEq] at h
          obtain ⟨rfl, rfl⟩ := h
          have hmk := takeFromRanges_marks ranges _ [] got restRanges htf
          rw [show marksOfRanges ([] : List MarkRange).reverse = [] from rfl,
            List.nil_append] at hmk
          rw [List.reverse_cons, marksOfUnits_append]
          simp only [marksOfUnits, marksOfUnit, List.map_cons, List.map_nil,
            List.flatten_cons, List.flatten_nil, List.append_nil, List.append_assoc]
          congr 1
          rw [← List.append_assoc, ← List.map_append, hmk]

/-- `threadLoop` neither loses nor duplicates marks. -/
theorem threadLoop_marks :
    ∀ (t : Nat) (mmcr mmpt : Nat) (parts : List StreamUnit)
      (acc res : List (List StreamUnit)) (remaining : List StreamUnit),
      threadLoop mmcr mmpt t parts acc = .ok (res, remaining) →
      marksOfWorkers res ++ marksOfUnits remaining =
        marksOfWorkers acc.reverse ++ marksOfUnits parts := by
  intro t
  induction t with
  | zero =>
    intro mmcr mmpt parts acc res remaining h
    simp only [threadLoop, Except.ok.injEq, Prod.mk.injEq] at h
    obtain ⟨rfl, rfl⟩ := h
    rfl
  | succ t ih =>
    intro mmcr mmpt parts acc res remaining h
    simp only [threadLoop] at h
    by_cases hp : parts.isEmpty
    · rw [if_pos hp] at h
      simp only [Except.ok.injEq, Prod.mk.injEq] at h
      obtain ⟨rfl, rfl⟩ := h
      rfl
    · rw [if_neg hp] at h
      cases hwk : workerLoop mmcr mmpt parts [] with
      | error e =>
        rw [hwk] at h
        exact Except.noConfusion h
      | ok pr =>
        obtain ⟨streams, parts'⟩ := pr
        rw [hwk] at h
        have hw := workerLoop_marks parts mmcr mmpt [] streams parts' hwk
        simp only [List.reverse_nil, marksOfUnits, List.map_nil, List.flatten_nil,
          List.nil_append] at hw
        have := ih mmcr mmpt parts' (streams :: acc) res remaining h
        rw [this, List.reverse_cons, marksOfWorkers_append]
        simp only [marksOfWorkers, List.map_cons, List.map_nil, List.flatten_cons,
          List.flatten_nil, List.append_nil, List.append_assoc]
        congr 1

/-- Unfolding equation for `spreadMarkRangesAmongThreads` with the local
`let`s reduced and the total written via `sumMarksUnits`. -/
theorem spreadMarkRangesAmongThreads_eq (parts0 : List StreamUnit) (threads mmcr : Nat) :
    spreadMarkRangesAmongThreads parts0 threads mmcr =
      if 0 < sumMarksUnits parts0 then
        match threadLoop mmcr ((sumMarksUnits parts0 - 1) / threads + 1) threads
            parts0.reverse [] with
        | .error e => .error e
        | .ok (res, remaining) =>
          if remaining.isEmpty then .ok res else .error .couldNotSpread
      else .ok [] := rfl

theorem marksOfUnits_reverse_perm (l : List StreamUnit) :
    (marksOfUnits l.reverse).Perm (marksOfUnits l) := by
  unfold marksOfUnits
  rw [List.map_reverse]
  exact (List.reverse_perm _).flatten

/-- Conservation for the whole spreader: on success, the multiset (as a
list up to permutation) of (part, mark) pairs read by the emitted streams
is exactly that of the input parts. -/
theorem spreadMarkRangesAmongThreads_marks_perm :
    ∀ (parts0 : List StreamUnit) (threads mmcr : Nat) (res : List (List StreamUnit)),
      spreadMarkRangesAmongThreads parts0 threads mmcr = .ok res →
      (marksOfWorkers res).Perm (marksOfUnits parts0) := by
  intro parts0 threads mmcr res h
  rw [spreadMarkRangesAmongThreads_eq] at h
  by_cases hs : 0 < sumMarksUnits parts0
  · rw [if_pos hs] at h
    cases htl : threadLoop mmcr ((sumMarksUnits parts0 - 1) / threads + 1) threads
      parts0.reverse [] with
    | error e =>
      rw [htl] at h
      exact Except.noConfusion h
    | ok pr =>
      obtain ⟨res', remaining⟩ := pr
      rw [htl] at h
      dsimp only at h
      by_cases hre : remaining.isEmpty
      · rw [if_pos hre] at h
        simp only [Except.ok.injEq] at h
        subst h
        have htm := threadLoop_marks threads mmcr _ parts0.reverse [] res' remaining htl
        rw [List.isEmpty_iff.mp hre] at htm
        rw [show marksOfUnits ([] : List StreamUnit) = [] from rfl, List.append_nil,
          show marksOfWorkers (([] : List (List StreamUnit)).reverse) = [] from rfl,
          List.nil_append] at htm
        rw [htm]
        exact marksOfUnits_reverse_perm parts0
      · rw [if_neg hre] at h
        exact Except.noConfusion h
  · rw [if_neg hs] at h
    simp only [Except.ok.injEq] at h
    subst h
    have hnil : marksOfUnits parts0 = [] := by
      have hlen : (marksOfUnits parts0).length = 0 := by
        rw [length_marksOfUnits]
        omega
      exact List.length_eq_zero.mp hlen
    rw [hnil]
    exact List.Perm.nil

/-- The (part, range) pairs of all streams of all workers. -/
def partRangePairs (ws : List (List StreamUnit)) : List (Nat × MarkRange) :=
  (ws.flatten.map (fun u => u.2.map (fun r => (u.1, r)))).flatten

/-- C2 amended: on success the spreader conserves marks — the total
`end - begin` over all emitted streams equals the input `sum_marks`, and
the multiset of (part, mark) pairs read by the streams is exactly the
input's, so every mark of every part is read exactly once and parts are
split only at whole-mark boundaries (a part may however span several
workers). -/
theorem spreadMarkRangesAmongThreads_conserves :
    ∀ (parts0 : List StreamUnit) (threads mmcr : Nat) (res : List (List StreamUnit)),
      1 ≤ threads →
      spreadMarkRangesAmongThreads parts0 threads mmcr = .ok res →
      sumMarksWorkers res = sumMarksUnits parts0 ∧
      (marksOfWorkers res).Perm (marksOfUnits parts0) := by
  intro parts0 threads mmcr res _ h
  have hp := spreadMarkRangesAmongThreads_marks_perm parts0 threads mmcr res h
  refine ⟨?_, hp⟩
  have hl := hp.length_eq
  rwa [length_marksOfWorkers, length_marksOfUnits] at hl

/-- Witness for the amended C2 on a concrete two-part input. -/
theorem spreadMarkRangesAmongThreads_conserves_witness :
    sumMarksWorkers [[(1, [⟨0, 10⟩])], [(1, [⟨10, 15⟩]), (0, [⟨0, 5⟩])]] =
      sumMarksUnits [(0, [⟨0, 5⟩]), (1, [⟨0, 15⟩])] ∧
    (marksOfWorkers [[(1, [⟨0, 10⟩])], [(1, [⟨10, 15⟩]), (0, [⟨0, 5⟩])]]).Perm
      (marksOfUnits [(0, [⟨0, 5⟩]), (1, [⟨0, 15⟩])]) :=
  spreadMarkRangesAmongThreads_conserves [(0, [⟨0, 5⟩]), (1, [⟨0, 15⟩])] 2 0 _
    (by decide) rfl

/-- C2 counterexample: with parts of 5 and 15 marks and two threads, part 1
is read by streams of both workers, so "each input part appears in exactly
one worker" fails (the per-worker quota of 10 splits part 1 across the two
workers). -/
theorem spreadMarkRangesAmongThreads_part_in_two_workers :
    spreadMarkRangesAmongThreads [(0, [⟨0, 5⟩]), (1, [⟨0, 15⟩])] 2 0 =
      .ok [[(1, [⟨0, 10⟩])], [(1, [⟨10, 15⟩]), (0, [⟨0, 5⟩])]] ∧
    ([[(1, [⟨0, 10⟩])], [(1, [⟨10, 15⟩]), (0, [⟨0, 5⟩])]] :
        List (List StreamUnit)).countP (fun w => w.any (fun s => s.1 == 1)) = 2 :=
  ⟨rfl, by decide⟩

/-- C10 amended: for any two part orders related by a permutation (the
random shuffle), successful runs with otherwise identical inputs read the
same multiset of (part, mark) pairs — coverage is shuffle-invariant at
mark granularity, though the emitted range boundaries may differ. -/
theorem spreadMarkRangesAmongThreads_shuffle_invariant :
    ∀ (parts0 parts1 : List StreamUnit) (threads mmcr : Nat)
      (res0 res1 : List (List StreamUnit)),
      parts0.Perm parts1 →
      spreadMarkRangesAmongThreads parts0 threads mmcr = .ok res0 →
      spreadMarkRangesAmongThreads parts1 threads mmcr = .ok res1 →
      (marksOfWorkers res0).Perm (marksOfWorkers res1) := by
  intro parts0 parts1 threads mmcr res0 res1 hperm h0 h1
  have hp0 := spreadMarkRangesAmongThreads_marks_perm parts0 threads mmcr res0 h0
  have hp1 := spreadMarkRangesAmongThreads_marks_perm parts1 threads mmcr res1 h1
  have hin : (marksOfUnits parts0).Perm (marksOfUnits parts1) :=
    (hperm.map marksOfUnit).flatten
  exact hp0.trans (hin.trans hp1.symm)

/-- Witness for the amended C10 on two concrete shuffles of the same parts. -/
theorem spreadMarkRangesAmongThreads_shuffle_invariant_witness :
    (marksOfWorkers [[(1, [⟨0, 10⟩])], [(1, [⟨10, 15⟩]), (0, [⟨0, 5⟩])]]).Perm
      (marksOfWorkers [[(0, [⟨0, 5⟩]), (1, [⟨0, 5⟩])], [(1, [⟨5, 15⟩])]]) :=
  spreadMarkRangesAmongThreads_shuffle_invariant
    [(0, [⟨0, 5⟩]), (1, [⟨0, 15⟩])] [(1, [⟨0, 15⟩]), (0, [⟨0, 5⟩])] 2 0 _ _
    (by decide) rfl rfl

/-- C10 counterexample: the two shuffles above produce genuinely different
multisets of (part, mark-range) pairs — range boundaries depend on the
shuffle order, so the claim's range-level multiset equality fails. -/
theorem spreadMarkRangesAmongThreads_shuffle_counterexample :
    ([(0, [⟨0, 5⟩]), (1, [⟨0, 15⟩])] : List StreamUnit).Perm
      [(1, [⟨0, 15⟩]), (0, [⟨0, 5⟩])] ∧
    spreadMarkRangesAmongThreads [(0, [⟨0, 5⟩]), (1, [⟨0, 15⟩])] 2 0 =
      .ok [[(1, [⟨0, 10⟩])], [(1, [⟨10, 15⟩]), (0, [⟨0, 5⟩])]] ∧
    spreadMarkRangesAmongThreads [(1, [⟨0, 15⟩]), (0, [⟨0, 5⟩])] 2 0 =
      .ok [[(0, [⟨0, 5⟩]), (1, [⟨0, 5⟩])], [(1, [⟨5, 15⟩])]] ∧
    ¬ (partRangePairs [[(1, [⟨0, 10⟩])], [(1, [⟨10, 15⟩]), (0, [⟨0, 5⟩])]]).Perm
        (partRangePairs [[(0, [⟨0, 5⟩]), (1, [⟨0, 5⟩])], [(1, [⟨5, 15⟩])]]) :=
  ⟨by decide, rfl, rfl, by decide⟩

/-! ## Reachability of the defensive errors -/

theorem sumMarksRanges_cons (r : MarkRange) (rs : List MarkRange) :
    sumMarksRanges (r :: rs) = (r.e - r.b) + sumMarksRanges rs := by
  simp [sumMarksRanges]

theorem sumMarksUnits_cons (p : StreamUnit) (ps : List StreamUnit) :
    sumMarksUnits (p :: ps) = sumMarksRanges p.2 + sumMarksUnits ps := by
  simp [sumMarksUnits]

/-- The inner partial-take loop cannot run out of ranges when asked for no
more marks than the part holds. -/
theorem takeFromRanges_ok :
    ∀ (ranges : List MarkRange) (need : Nat) (acc : List MarkRange),
      need ≤ sumMarksRanges ranges →
      ∃ got rest, takeFromRanges need ranges acc = .ok (got, rest) := by
  intro ranges
  induction ranges with
  | nil =>
    intro need acc hle
    cases need with
    | zero => exact ⟨acc.reverse, [], rfl⟩
    | succ n =>
      simp only [sumMarksRanges, List.map_nil, List.sum_nil] at hle
      omega
  | cons r rs ih =>
    intro need acc hle
    cases need with
    | zero => exact ⟨acc.reverse, r :: rs, rfl⟩
    | succ n =>
      rw [sumMarksRanges_cons] at hle
      by_cases hc : r.e ≤ r.b + min (r.e - r.b) (n + 1)
      · obtain ⟨got, rest, htf⟩ := ih (n + 1 - min (r.e - r.b) (n + 1))
          (⟨r.b, r.b + min (r.e - r.b) (n + 1)⟩ :: acc) (by omega)
        refine ⟨got, rest, ?_⟩
        simp only [takeFromRanges]
        rw [if_pos hc]
        exact htf
      · refine ⟨(⟨r.b, r.b + min (r.e - r.b) (n + 1)⟩ :: acc).reverse,
          ⟨r.b + min (r.e - r.b) (n + 1), r.e⟩ :: rs, ?_⟩
        simp only [takeFromRanges]
        rw [if_neg hc]

/-- The partial take removes exactly `need` marks from the part. -/
theorem takeFromRanges_taken :
    ∀ (ranges : List MarkRange) (need : Nat) (acc got rest : List MarkRange),
      need ≤ sumMarksRanges ranges →
      takeFromRanges need ranges acc = .ok (got, rest) →
      sumMarksRanges rest = sumMarksRanges ranges - need := by
  intro ranges
  induction ranges with
  | nil =>
    intro need acc got rest hle h
    cases need with
    | zero =>
      simp only [takeFromRanges, Except.ok.injEq, Prod.mk.injEq] at h
      obtain ⟨rfl, rfl⟩ := h
      rfl
    | succ n =>
      simp only [sumMarksRanges, List.map_nil, List.sum_nil] at hle
      omega
  | cons r rs ih =>
    intro need acc got rest hle h
    cases need with
    | zero =>
      simp only [takeFromRanges, Except.ok.injEq, Prod.mk.injEq] at h
      obtain ⟨rfl, rfl⟩ := h
      omega
    | succ n =>
      rw [sumMarksRanges_cons] at hle
      simp only [takeFromRanges] at h
      by_cases hc : r.e ≤ r.b + min (r.e - r.b) (n + 1)
      · rw [if_pos hc] at h
        have := ih (n + 1 - min (r.e - r.b) (n + 1))
          (⟨r.b, r.b + min (r.e - r.b) (n + 1)⟩ :: acc) got rest (by omega) h
        rw [this, sumMarksRanges_cons]
        omega
      · rw [if_neg hc] at h
        simp only [Except.ok.injEq, Prod.mk.injEq] at h
        obtain ⟨rfl, rfl⟩ := h
        rw [sumMarksRanges_cons, sumMarksRanges_cons]
        dsimp only
        rcases min_choice (r.e - r.b) (n + 1) with hm | hm <;> rw [hm] at hc ⊢ <;> omega

/-- The per-worker loop never throws: its defensive inner-loop error
("Unexpected end of ranges") is unreachable for every input. -/
theorem workerLoop_ok :
    ∀ (parts : List StreamUnit) (mmcr need : Nat) (acc : List StreamUnit),
      ∃ streams parts', workerLoop mmcr need parts acc = .ok (streams, parts') := by
  intro parts
  induction parts with
  | nil =>
    intro mmcr need acc
    cases need with
    | zero => exact ⟨acc.reverse, [], rfl⟩
    | succ n => exact ⟨acc.reverse, [], rfl⟩
  | cons p rest ih =>
    intro mmcr need acc
    cases need with
    | zero => exact ⟨acc.reverse, p :: rest, rfl⟩
    | succ n =>
      obtain ⟨pid, ranges⟩ := p
      by_cases hw : sumMarksRanges ranges ≤ adjustNeed mmcr (sumMarksRanges ranges) (n + 1)
      · obtain ⟨streams, parts', hrec⟩ := ih mmcr
          (adjustNeed mmcr (sumMarksRanges ranges) (n + 1) - sumMarksRanges ranges)
          ((pid, ranges) :: acc)
        refine ⟨streams, parts', ?_⟩
        simp only [workerLoop]
        rw [if_pos hw]
        exact hrec
      · obtain ⟨got, restRanges, htf⟩ := takeFromRanges_ok ranges
          (adjustNeed mmcr (sumMarksRanges ranges) (n + 1)) [] (by omega)
        refine ⟨((pid, got) :: acc).reverse, (pid, restRanges) :: rest, ?_⟩
        simp only [workerLoop]
        rw [if_neg hw, htf]

/-- Each worker either exhausts all parts or consumes at least the marks
it was asked for. -/
theorem workerLoop_consume :
    ∀ (parts : List StreamUnit) (mmcr need : Nat) (acc streams parts' : List StreamUnit),
      workerLoop mmcr need parts acc = .ok (streams, parts') →
      parts' = [] ∨ sumMarksUnits parts' + need ≤ sumMarksUnits parts := by
  intro parts
  induction parts with
  | nil =>
    intro mmcr need acc streams parts' h
    cases need with
    | zero =>
      simp only [workerLoop, Except.ok.injEq, Prod.mk.injEq] at h
      exact Or.inl h.2.symm
    | succ n =>
      simp only [workerLoop, Except.ok.injEq, Prod.mk.injEq] at h
      exact Or.inl h.2.symm
  | cons p rest ih =>
    intro mmcr need acc streams parts' h
    cases need with
    | zero =>
      simp only [workerLoop, Except.ok.injEq, Prod.mk.injEq] at h
      obtain ⟨rfl, rfl⟩ := h
      exact Or.inr (by omega)
    | succ n =>
      obtain ⟨pid, ranges⟩ := p
      simp only [workerLoop] at h
      have hadj := adjustNeed_ge mmcr (sumMarksRanges ranges) (n + 1)
      by_cases hw : sumMarksRanges ranges ≤ adjustNeed mmcr (sumMarksRanges ranges) (n + 1)
      · rw [if_pos hw] at h
        rcases ih mmcr _ ((pid, ranges) :: acc) streams parts' h with hnil | hle
        · exact Or.inl hnil
        · refine Or.inr ?_
          rw [sumMarksUnits_cons]
          dsimp only
          omega
      · rw [if_neg hw] at h
        cases htf : takeFromRanges (adjustNeed mmcr (sumMarksRanges ranges) (n + 1)) ranges []
          with
        | error e =>
          rw [htf] at h
          exact Except.noConfusion h
        | ok pr =>
          obtain ⟨got, restRanges⟩ := pr
          rw [htf] at h
          simp only [Except.ok.injEq, Prod.mk.injEq] at h
          obtain ⟨rfl, rfl⟩ := h
          refine Or.inr ?_
          have htaken := takeFromRanges_taken ranges _ [] got restRanges (by omega) htf
          rw [sumMarksUnits_cons, sumMarksUnits_cons]
          dsimp only
          omega

/-- The worker loop leaves only parts that still hold at least one mark,
provided all its input parts did. -/
theorem workerLoop_positive :
    ∀ (parts : List StreamUnit) (mmcr need : Nat) (acc streams parts' : List StreamUnit),
      workerLoop mmcr need parts acc = .ok (streams, parts') →
      (∀ p ∈ parts, 0 < sumMarksRanges p.2) →
      ∀ p ∈ parts', 0 < sumMarksRanges p.2 := by
  intro parts
  induction parts with
  | nil =>
    intro mmcr need acc streams parts' h hpos
    cases need with
    | zero =>
      simp only [workerLoop, Except.ok.injEq, Prod.mk.injEq] at h
      obtain ⟨rfl, rfl⟩ := h
      exact hpos
    | succ n =>
      simp only [workerLoop, Except.ok.injEq, Prod.mk.injEq] at h
      obtain ⟨rfl, rfl⟩ := h
      intro p hp
      exact absurd hp (List.not_mem_nil p)
  | cons q rest ih =>
    intro mmcr need acc streams parts' h hpos
    cases need with
    | zero =>
      simp only [workerLoop, Except.ok.injEq, Prod.mk.injEq] at h
      obtain ⟨rfl, rfl⟩ := h
      exact hpos
    | succ n =>
      obtain ⟨pid, ranges⟩ := q
      simp only [workerLoop] at h
      by_cases hw : sumMarksRanges ranges ≤ adjustNeed mmcr (sumMarksRanges ranges) (n + 1)
      · rw [if_pos hw] at h
        exact ih mmcr _ ((pid, ranges) :: acc) streams parts' h
          (fun p hp => hpos p (List.mem_cons_of_mem _ hp))
      · rw [if_neg hw] at h
        cases htf : takeFromRanges (adjustNeed mmcr (sumMarksRanges ranges) (n + 1)) ranges []
          with
        | error e =>
          rw [htf] at h
          exact Except.noConfusion h
        | ok pr =>
          obtain ⟨got, restRanges⟩ := pr
          rw [htf] at h
          simp only [Except.ok.injEq, Prod.mk.injEq] at h
          obtain ⟨rfl, rfl⟩ := h
          intro p hp
          rcases List.mem_cons.mp hp with hp' | hp'
          · have htaken := takeFromRanges_taken ranges _ [] got restRanges (by omega) htf
            rw [hp']
            dsimp only
            omega
          · exact hpos p (List.mem_cons_of_mem _ hp')

/-- `threadLoop` never throws. -/
theorem threadLoop_ok :
    ∀ (t mmcr mmpt : Nat) (parts : List StreamUnit) (acc : List (List StreamUnit)),
      ∃ res remaining, threadLoop mmcr mmpt t parts acc = .ok (res, remaining) := by
  intro t
  induction t with
  | zero => intro mmcr mmpt parts acc; exact ⟨acc.reverse, parts, rfl⟩
  | succ t ih =>
    intro mmcr mmpt parts acc
    by_cases hp : parts.isEmpty
    · refine ⟨acc.reverse, parts, ?_⟩
      simp only [threadLoop]
      rw [if_pos hp]
    · obtain ⟨streams, parts', hwk⟩ := workerLoop_ok parts mmcr mmpt []
      obtain ⟨res, remaining, hrec⟩ := ih mmcr mmpt parts' (streams :: acc)
      refine ⟨res, remaining, ?_⟩
      simp only [threadLoop]
      rw [if_neg hp, hwk]
      exact hrec

theorem threadLoop_nil (t mmcr mmpt : Nat) (acc : List (List StreamUnit)) :
    threadLoop mmcr mmpt t [] acc = .ok (acc.reverse, []) := by
  cases t with
  | zero => rfl
  | succ t => rfl

/-- If every part holds at least one mark and `t` workers suffice to cover
the total (`sum ≤ t * mmpt`), the thread loop consumes every part. -/
theorem threadLoop_exhausts :
    ∀ (t mmcr mmpt : Nat) (parts : List StreamUnit) (acc res : List (List StreamUnit))
      (remaining : List StreamUnit),
      (∀ p ∈ parts, 0 < sumMarksRanges p.2) →
      sumMarksUnits parts ≤ t * mmpt →
      threadLoop mmcr mmpt t parts acc = .ok (res, remaining) →
      remaining = [] := by
  intro t
  induction t with
  | zero =>
    intro mmcr mmpt parts acc res remaining hpos hsum h
    simp only [threadLoop, Except.ok.injEq, Prod.mk.injEq] at h
    obtain ⟨rfl, rfl⟩ := h
    cases parts with
    | nil => rfl
    | cons p rest =>
      have := hpos p (List.mem_cons_self _ _)
      rw [sumMarksUnits_cons] at hsum
      omega
  | succ t ih =>
    intro mmcr mmpt parts acc res remaining hpos hsum h
    simp only [threadLoop] at h
    by_cases hp : parts.isEmpty
    · rw [if_pos hp] at h
      simp only [Except.ok.injEq, Prod.mk.injEq] at h
      obtain ⟨rfl, rfl⟩ := h
      exact List.isEmpty_iff.mp hp
    · rw [if_neg hp] at h
      cases hwk : workerLoop mmcr mmpt parts [] with
      | error e =>
        rw [hwk] at h
        exact Except.noConfusion h
      | ok pr =>
        obtain ⟨streams, parts'⟩ := pr
        rw [hwk] at h
        dsimp only at h
        rcases workerLoop_consume parts mmcr mmpt [] streams parts' hwk with hnil | hle
        · subst hnil
          rw [threadLoop_nil] at h
          simp only [Except.ok.injEq, Prod.mk.injEq] at h
          exact h.2.symm
        · refine ih mmcr mmpt parts' (streams :: acc) res remaining
            (workerLoop_positive parts mmcr mmpt [] streams parts' hwk hpos) ?_ h
          rw [Nat.succ_mul] at hsum
          omega

theorem ceil_div_mul_ge (s threads : Nat) (ht : 1 ≤ threads) (hs : 1 ≤ s) :
    s ≤ threads * ((s - 1) / threads + 1) := by
  have hdm := Nat.div_add_mod (s - 1) threads
  have hmod : (s - 1) % threads < threads := Nat.mod_lt _ (by omega)
  calc s = (s - 1) + 1 := by omega
    _ ≤ threads * ((s - 1) / threads) + (s - 1) % threads + 1 := by omega
    _ ≤ threads * ((s - 1) / threads) + threads := by omega
    _ = threads * ((s - 1) / threads + 1) := by rw [Nat.mul_add, Nat.mul_one]

theorem sumMarksUnits_reverse (l : List StreamUnit) :
    sumMarksUnits l.reverse = sumMarksUnits l := by
  have := (marksOfUnits_reverse_perm l).length_eq
  rwa [length_marksOfUnits, length_marksOfUnits] at this

/-- C7 amended: the inner defensive error ("Unexpected end of ranges") is
unreachable for every input; the post-loop defensive error ("Couldn't
spread marks among threads") is unreachable whenever `threads ≥ 1` and
every input part holds at least one mark (it is reachable with a
zero-mark part, see the counterexample). -/
theorem spreadMarkRangesAmongThreads_defensive_errors :
    (∀ (parts0 : List StreamUnit) (threads mmcr : Nat),
      spreadMarkRangesAmongThreads parts0 threads mmcr ≠
        .error .unexpectedEndOfRanges) ∧
    (∀ (parts0 : List StreamUnit) (threads mmcr : Nat),
      1 ≤ threads →
      (∀ p ∈ parts0, 0 < sumMarksRanges p.2) →
      ∃ res, spreadMarkRangesAmongThreads parts0 threads mmcr = .ok res) := by
  constructor
  · intro parts0 threads mmcr
    rw [spreadMarkRangesAmongThreads_eq]
    by_cases hs : 0 < sumMarksUnits parts0
    · rw [if_pos hs]
      obtain ⟨res, remaining, htl⟩ := threadLoop_ok threads mmcr
        ((sumMarksUnits parts0 - 1) / threads + 1) parts0.reverse []
      rw [htl]
      dsimp only
      by_cases hre : remaining.isEmpty
      · rw [if_pos hre]
        exact fun hcontra => Except.noConfusion hcontra
      · rw [if_neg hre]
        intro hcontra
        exact SpreadError.noConfusion (Except.error.inj hcontra)
    · rw [if_neg hs]
      exact fun hcontra => Except.noConfusion hcontra
  · intro parts0 threads mmcr ht hpos
    rw [spreadMarkRangesAmongThreads_eq]
    by_cases hs : 0 < sumMarksUnits parts0
    · rw [if_pos hs]
      obtain ⟨res, remaining, htl⟩ := threadLoop_ok threads mmcr
        ((sumMarksUnits parts0 - 1) / threads + 1) parts0.reverse []
      have hrem : remaining = [] := by
        refine threadLoop_exhausts threads mmcr _ parts0.reverse [] res remaining ?_ ?_ htl
        · intro p hp
          exact hpos p (List.mem_reverse.mp hp)
        · rw [sumMarksUnits_reverse]
          exact ceil_div_mul_ge _ _ ht hs
      subst hrem
      rw [htl]
      exact ⟨res, rfl⟩
    · rw [if_neg hs]
      exact ⟨[], rfl⟩

/-- Witness for the amended C7: a positive-marks input spreads without
error. -/
theorem spreadMarkRangesAmongThreads_defensive_errors_witness :
    spreadMarkRangesAmongThreads [(0, [⟨0, 5⟩]), (1, [⟨0, 15⟩])] 2 0 ≠
      .error .unexpectedEndOfRanges ∧
    ∃ res, spreadMarkRangesAmongThreads [(0, [⟨0, 5⟩]), (1, [⟨0, 15⟩])] 2 0 = .ok res :=
  ⟨spreadMarkRangesAmongThreads_defensive_errors.1 [(0, [⟨0, 5⟩]), (1, [⟨0, 15⟩])] 2 0,
   spreadMarkRangesAmongThreads_defensive_errors.2 [(0, [⟨0, 5⟩]), (1, [⟨0, 15⟩])] 2 0
     (by decide) (by decide)⟩

/-- C7 counterexample: with a zero-mark part ordered in front of a
one-mark part and a single thread, the post-loop defensive check fires:
the spreader returns the "Couldn't spread marks among threads" logical
error, so that branch is reachable. -/
theorem spreadMarkRangesAmongThreads_couldNotSpread_reachable :
    spreadMarkRangesAmongThreads [(0, [⟨0, 0⟩]), (1, [⟨0, 1⟩])] 1 0 =
      .error .couldNotSpread :=
  rfl

/-! ## Sampling cutoff and error taxonomy -/

/-- Unfolding equation for the sampling section on a present sample
clause. -/
theorem sampleSection_some_eq (s : ℚ) (ct : ColType) (addOk : Bool)
    (scan : List (List MarkRange)) (g : Nat) :
    sampleSection (some s) ct addOk scan g =
      if s < 0 then .error .argumentOutOfBound
      else
        match typeMaxValue ct with
        | none => .error .illegalTypeOfColumnForFilter
        | some m =>
          if addOk then
            .ok ⟨some ((⌊sampleRelative s scan g * (m : ℚ)⌋).toNat),
                 some ((⌊sampleRelative s scan g * (m : ℚ)⌋).toNat)⟩
          else .error .illegalColumn := rfl

/-- C4: with a present sample clause of value `s ≥ 0`, a supported column
type of maximum `M` and a primary-keyed sampling column, the section
succeeds, and one single value `limit = ⌊relative · M⌋` is used both as
the right bound added to the key condition and as the literal of the
row-level filter; the relative size equals `min(1, requested/total)` with
`total` the preliminary scan's marks times `index_granularity` when
`s > 1` (and `total ≠ 0`), and equals `s` itself when `s ≤ 1`. -/
theorem sampleSection_cutoff :
    ∀ (s : ℚ) (ct : ColType) (M : Nat) (scan : List (List MarkRange)) (g : Nat),
      typeMaxValue ct = some M → 0 ≤ s →
      (∃ L : Nat, sampleSection (some s) ct true scan g = .ok ⟨some L, some L⟩ ∧
        L = (⌊sampleRelative s scan g * (M : ℚ)⌋).toNat) ∧
      (1 < s → ((scan.map sumMarksRanges).sum) * g ≠ 0 →
        sampleRelative s scan g =
          min 1 ((s.floor.toNat : ℚ) / ((((scan.map sumMarksRanges).sum) * g : Nat) : ℚ))) ∧
      (s ≤ 1 → sampleRelative s scan g = s) := by
  intro s ct M scan g hct hs0
  refine ⟨?_, ?_, ?_⟩
  · refine ⟨(⌊sampleRelative s scan g * (M : ℚ)⌋).toNat, ?_, rfl⟩
    rw [sampleSection_some_eq, if_neg (not_lt.mpr hs0), hct]
    rfl
  · intro hs1 htot
    unfold sampleRelative
    rw [if_pos hs1]
    dsimp only
    rw [if_neg htot]
  · intro hs1
    unfold sampleRelative
    rw [if_neg (not_lt.mpr hs1)]

/-- Witness for C4: sample 1/2 over a `UInt32` column gives the cutoff
`⌊(1/2)·(2^32-1)⌋ = 2147483647` in both places. -/
theorem sampleSection_cutoff_witness :
    ∃ L : Nat, sampleSection (some (1/2)) .uint32 true [] 8192 = .ok ⟨some L, some L⟩ ∧
      L = (⌊sampleRelative (1/2) [] 8192 * ((4294967295 : Nat) : ℚ)⌋).toNat :=
  (sampleSection_cutoff (1/2) .uint32 4294967295 [] 8192 rfl (by norm_num)).1

/-- C6: the error taxonomy of the sampling section, with the source's
check order: a bad-argument error iff a sample clause with negative value
is present; given `s ≥ 0`, an illegal-column-type error iff the sampling
column's type is unsupported; given a supported type, an illegal-column
error iff `addCondition` reported the column absent from the primary key;
and with no sample clause none of the three errors is raised. -/
theorem sampleSection_error_taxonomy :
    ∀ (sampleSize : Option ℚ) (ct : ColType) (addOk : Bool)
      (scan : List (List MarkRange)) (g : Nat),
      (sampleSection sampleSize ct addOk scan g = .error .argumentOutOfBound ↔
        ∃ s, sampleSize = some s ∧ s < 0) ∧
      (∀ s, sampleSize = some s → 0 ≤ s →
        (sampleSection sampleSize ct addOk scan g = .error .illegalTypeOfColumnForFilter ↔
          typeMaxValue ct = none)) ∧
      (∀ s, sampleSize = some s → 0 ≤ s → typeMaxValue ct ≠ none →
        (sampleSection sampleSize ct addOk scan g = .error .illegalColumn ↔
          addOk = false)) ∧
      (sampleSize = none → sampleSection sampleSize ct addOk scan g = .ok ⟨none, none⟩) := by
  intro sampleSize ct addOk scan g
  cases sampleSize with
  | none =>
    refine ⟨⟨fun h => Except.noConfusion h, ?_⟩, ?_, ?_, fun _ => rfl⟩
    · rintro ⟨s, hs, _⟩
      exact Option.noConfusion hs
    · intro s hs
      exact Option.noConfusion hs
    · intro s hs
      exact Option.noConfusion hs
  | some s =>
    by_cases hneg : s < 0
    · have heq : sampleSection (some s) ct addOk scan g = .error .argumentOutOfBound := by
        rw [sampleSection_some_eq, if_pos hneg]
      refine ⟨⟨fun _ => ⟨s, rfl, hneg⟩, fun _ => heq⟩, ?_, ?_, ?_⟩
      · intro s' hs' h0
        obtain rfl : s = s' := Option.some.inj hs'
        exact absurd h0 (not_le.mpr hneg)
      · intro s' hs' h0
        obtain rfl : s = s' := Option.some.inj hs'
        exact absurd h0 (not_le.mpr hneg)
      · intro h
        exact Option.noConfusion h
    · cases hct : typeMaxValue ct with
      | none =>
        have heq : sampleSection (some s) ct addOk scan g =
            .error .illegalTypeOfColumnForFilter := by
          rw [sampleSection_some_eq, if_neg hneg, hct]
        refine ⟨⟨fun h => ?_, ?_⟩, ?_, ?_, ?_⟩
        · rw [heq] at h
          exact absurd (Except.error.inj h) (by simp)
        · rintro ⟨s', hs', hneg'⟩
          obtain rfl : s = s' := Option.some.inj hs'
          exact absurd hneg' hneg
        · intro s' _ _
          exact ⟨fun _ => rfl, fun _ => heq⟩
        · intro s' _ _ hct'
          exact absurd rfl hct'
        · intro h
          exact Option.noConfusion h
      | some m =>
        cases addOk with
        | true =>
          have heq : sampleSection (some s) ct true scan g =
              .ok ⟨some ((⌊sampleRelative s scan g * (m : ℚ)⌋).toNat),
                   some ((⌊sampleRelative s scan g * (m : ℚ)⌋).toNat)⟩ := by
            rw [sampleSection_some_eq, if_neg hneg, hct]
            rfl
          refine ⟨⟨fun h => ?_, ?_⟩, ?_, ?_, ?_⟩
          · rw [heq] at h
            exact Except.noConfusion h
          · rintro ⟨s', hs', hneg'⟩
            obtain rfl : s = s' := Option.some.inj hs'
            exact absurd hneg' hneg
          · intro s' _ _
            refine ⟨fun h => ?_, fun h => ?_⟩
            · rw [heq] at h
              exact Except.noConfusion h
            · exact Option.noConfusion h
          · intro s' _ _ _
            refine ⟨fun h => ?_, fun h => Bool.noConfusion h⟩
            rw [heq] at h
            exact Except.noConfusion h
          · intro h
            exact Option.noConfusion h
        | false =>
          have heq : sampleSection (some s) ct false scan g = .error .illegalColumn := by
            rw [sampleSection_some_eq, if_neg hneg, hct]
            rfl
          refine ⟨⟨fun h => ?_, ?_⟩, ?_, ?_, ?_⟩
          · rw [heq] at h
            exact absurd (Except.error.inj h) (by simp)
          · rintro ⟨s', hs', hneg'⟩
            obtain rfl : s = s' := Option.some.inj hs'
            exact absurd hneg' hneg
          · intro s' _ _
            refine ⟨fun h => ?_, fun h => ?_⟩
            · rw [heq] at h
              exact absurd (Except.error.inj h) (by simp)
            · exact Option.noConfusion h
          · intro s' _ _ _
            exact ⟨fun _ => rfl, fun _ => heq⟩
          · intro h
            exact Option.noConfusion h

/-- Witness for C6: a negative sample value raises the bad-argument
error. -/
theorem sampleSection_error_taxonomy_witness :
    sampleSection (some (-1)) .uint32 true [] 8192 = .error .argumentOutOfBound :=
  (sampleSection_error_taxonomy (some (-1)) .uint32 true [] 8192).1.mpr
    ⟨-1, rfl, by norm_num⟩
